import Mathlib

/-!
Verification development for the rockit repository core:
the B-spline basis engine (`rockit/splines/micro_spline.py`) and the
multi-stage OCP orchestrator (`ocpx/ocp_multistage.py`).

The spline functions are written in Python against CasADi's matrix algebra,
generically over numeric (`DM`) and symbolic (`MX`) scalars.  We mirror that
genericity with a small algebra class `SplineAlg`, instantiated at `ℚ`
(exact-arithmetic idealization of the float64 path) and at a tiny symbolic
expression type `CExpr` (idealization of the `MX` path, with `evalf` as the
best-effort numeric reduction).
-/

namespace Rockit

/-- The scalar operations the spline code uses, shared by the numeric and
symbolic instantiations (mirrors CasADi's DM/MX duality). -/
class SplineAlg (α : Type) extends Add α, Sub α, Mul α, Div α where
  ofRat : ℚ → α

instance : SplineAlg ℚ := { ofRat := id }

/-- `np.finfo(np.float64).eps` as an exact rational. -/
def eps64 : ℚ := 1 / 2 ^ 52

/-- Symbolic expression scalars: idealization of CasADi `MX` nodes.
`sym` is a free symbolic primitive; everything else is arithmetic. -/
inductive CExpr where
  | const : ℚ → CExpr
  | sym : ℕ → CExpr
  | add : CExpr → CExpr → CExpr
  | sub : CExpr → CExpr → CExpr
  | mul : CExpr → CExpr → CExpr
  | div : CExpr → CExpr → CExpr
deriving DecidableEq, Repr

instance : SplineAlg CExpr :=
  { add := CExpr.add, sub := CExpr.sub, mul := CExpr.mul, div := CExpr.div,
    ofRat := CExpr.const }

/-- Best-effort numeric reduction of one expression: models CasADi `evalf`
on a scalar.  Fails (returns `none`) exactly when a free symbol occurs;
numeric division is total (floating division never raises in CasADi). -/
def evalfE : CExpr → Option ℚ
  | .const q => some q
  | .sym _ => none
  | .add a b => do pure ((← evalfE a) + (← evalfE b))
  | .sub a b => do pure ((← evalfE a) - (← evalfE b))
  | .mul a b => do pure ((← evalfE a) * (← evalfE b))
  | .div a b => do pure ((← evalfE a) / (← evalfE b))

/-- An expression with no free symbol (purely numeric expression graph). -/
def symFree : CExpr → Bool
  | .const _ => true
  | .sym _ => false
  | .add a b => symFree a && symFree b
  | .sub a b => symFree a && symFree b
  | .mul a b => symFree a && symFree b
  | .div a b => symFree a && symFree b

/-- Is the expression a plain numeric leaf (fully reduced value)? -/
def CExpr.isConst : CExpr → Bool
  | .const _ => true
  | _ => false

section SplineDefs

variable {α : Type} [SplineAlg α]

/-- The clamped knot vector of `eval_on_knots`:
`knots = horzcat(repmat(xi[0],1,d), xi, repmat(xi[-1],1,d))`,
as a function of the knot index (the vector has `n + 2*d` entries). -/
def knotsOf (xi : ℕ → α) (n d : ℕ) : ℕ → α := fun j =>
  if j < d then xi 0 else if j < d + n then xi (j - d) else xi (n - 1)

/-- Degree-0 seed of `eval_basis_knotindex_subsampled` (and of
`eval_basis_knotindex` for `ind > 0`): value `s` at the single slot
`min(ind+d, numel-d-2)`, zero elsewhere.  In the source `s = 1.0 + eps`. -/
def seedSingle (ind d numel : ℕ) (s : α) : ℕ → α := fun j =>
  if j = min (ind + d) (numel - d - 2) then s else SplineAlg.ofRat 0

/-- Degree-0 seed of `eval_basis_knotindex`: for `ind = 0` the first `d+1`
slots each hold `s` (`for j in range(d+1): basis[j] = 1.0+eps`), otherwise
the single clamped slot holds `s`. -/
def seedKI (ind d numel : ℕ) (s : α) : ℕ → α := fun j =>
  if ind = 0 then (if j ≤ d then s else SplineAlg.ofRat 0)
  else seedSingle ind d numel s j

/-- One Cox-de Boor step of the source recursion (loop body for a given `e`):
the new basis entry `j` receives `(x - ki) * (basis[i]/(kid - ki))` from
window index `i = j` and `(kid - x) * (basis[i]/(kid - ki))` from window
index `i = j + 1`, where the window is `i ∈ [d-e+1, numel-d-2]`. -/
def coxStep (knots : ℕ → α) (numel d : ℕ) (x : α) (e : ℕ) (b : ℕ → α) :
    ℕ → α := fun j =>
  (if d - e + 1 ≤ j ∧ j ≤ numel - d - 2 then
      (x - knots j) * (b j / (knots (j + e) - knots j))
    else SplineAlg.ofRat 0)
  + (if d - e + 1 ≤ j + 1 ∧ j + 1 ≤ numel - d - 2 then
      (knots (j + 1 + e) - x) * (b (j + 1) / (knots (j + 1 + e) - knots (j + 1)))
    else SplineAlg.ofRat 0)

/-- `e` iterations of the Cox-de Boor loop (`for e in range(1, d+1)`),
applied to the degree-0 seed `b`. -/
def coxIter (knots : ℕ → α) (numel d : ℕ) (x : α) : ℕ → (ℕ → α) → ℕ → α
  | 0, b => b
  | e + 1, b => coxStep knots numel d x (e + 1) (coxIter knots numel d x e b)

/-- `eval_basis_knotindex(ind, knots, d)` with the seed value `s` abstracted:
run the recursion `d` times at `x = knots[ind+d]` from the `seedKI` seed. -/
def evalBasisKnotindexS (xi : ℕ → α) (n d ind : ℕ) (s : α) : ℕ → α :=
  coxIter (knotsOf xi n d) (n + 2 * d) d (knotsOf xi n d (ind + d)) d
    (seedKI ind d (n + 2 * d) s)

/-- `eval_basis_knotindex(ind, knots, d)` from the source, seed `1.0 + eps`.
The result vector has `numel - d - 1 = n + d - 1` entries. -/
def eval_basis_knotindex (xi : ℕ → α) (n d ind : ℕ) : ℕ → α :=
  evalBasisKnotindexS xi n d ind (SplineAlg.ofRat (1 + eps64))

/-- The `t`-th evaluation point of `eval_basis_knotindex_subsampled`
(0-based `t < N`): `x = knots[ind+d]*(1-tau) + tau*knots[ind+d+1]` with
`tau = (t+1)/(N+1)` (interior points of `cs.linspace(0,1,N+2)`). -/
def subPoint (xi : ℕ → α) (n d ind N t : ℕ) : α :=
  let τ : α := SplineAlg.ofRat ((t + 1 : ℚ) / (N + 1))
  knotsOf xi n d (ind + d) * (SplineAlg.ofRat 1 - τ) + τ * knotsOf xi n d (ind + d + 1)

/-- Column `t` of `eval_basis_knotindex_subsampled(ind, N, knots, d)` with
the seed value abstracted: same recursion, single-slot seed, evaluated at
the interior point `subPoint`. -/
def evalBasisSubColS (xi : ℕ → α) (n d ind N t : ℕ) (s : α) : ℕ → α :=
  coxIter (knotsOf xi n d) (n + 2 * d) d (subPoint xi n d ind N t) d
    (seedSingle ind d (n + 2 * d) s)

/-- Column `t` of `eval_basis_knotindex_subsampled` from the source,
seed `1.0 + eps`. -/
def eval_basis_knotindex_subsampled (xi : ℕ → α) (n d ind N t : ℕ) : ℕ → α :=
  evalBasisSubColS xi n d ind N t (SplineAlg.ofRat (1 + eps64))

/-- The `t`-th subsampled coordinate appended to `k` in `eval_on_knots`:
`k_current*(1-tau) + tau*k_next` built directly from `xi`. -/
def kInterp (xi : ℕ → α) (N i t : ℕ) : α :=
  let τ : α := SplineAlg.ofRat ((t + 1 : ℚ) / (N + 1))
  xi i * (SplineAlg.ofRat 1 - τ) + τ * xi (i + 1)

/-- The columns of the basis matrix assembled by `eval_on_knots(xi, d, sub)`:
for each `i in range(knots.numel()-2*d)` the breakpoint column, followed,
when `sub > 0` and `i` is not the last index, by the `sub` subsampled
columns of the segment to the next breakpoint. -/
def evalOnKnotsCols (xi : ℕ → α) (n d sub : ℕ) : List (ℕ → α) :=
  (List.range n).flatMap fun i =>
    eval_basis_knotindex xi n d i ::
      (if 0 < sub ∧ i + 1 < n then
        (List.range sub).map fun t => eval_basis_knotindex_subsampled xi n d i sub t
      else [])

/-- The coordinate vector `k` assembled by `eval_on_knots(xi, d, sub)`. -/
def evalOnKnotsK (xi : ℕ → α) (n sub : ℕ) : List α :=
  (List.range n).flatMap fun i =>
    xi i ::
      (if 0 < sub ∧ i + 1 < n then
        (List.range sub).map fun t => kInterp xi sub i t
      else [])

/-- Listify function-columns into a concrete matrix of `numel - d - 1`-entry
columns (the length of the vectors the recursion returns). -/
def colsToMat (numel d : ℕ) (cols : List (ℕ → α)) : List (List α) :=
  cols.map fun c => (List.range (numel - d - 1)).map c

/-- `eval_on_knots(xi, d, subsamples)` before the final `evalf` reduction:
the coordinate vector and the basis matrix (as a list of columns). -/
def eval_on_knots (xi : ℕ → α) (n d sub : ℕ) : List α × List (List α) :=
  (evalOnKnotsK xi n sub, colsToMat (n + 2 * d) d (evalOnKnotsCols xi n d sub))

end SplineDefs

/-- `evalf` on a vector: succeeds only if every entry reduces. -/
def evalfVec : List CExpr → Option (List ℚ)
  | [] => some []
  | a :: t => do pure ((← evalfE a) :: (← evalfVec t))

/-- `evalf` on a matrix: succeeds only if every row reduces. -/
def evalfMat : List (List CExpr) → Option (List (List ℚ))
  | [] => some []
  | r :: t => do pure ((← evalfVec r) :: (← evalfMat t))

/-- The symbolic-path `eval_on_knots`, including the final
`try: x = evalf(x) except: pass` blocks: each of the two results is
replaced by its numeric reduction when reduction succeeds and is returned
unchanged when it does not. -/
def eval_on_knots_mx (xi : ℕ → CExpr) (n d sub : ℕ) : List CExpr × List (List CExpr) :=
  let kb := eval_on_knots xi n d sub
  (match evalfVec kb.1 with
    | some q => q.map CExpr.const
    | none => kb.1,
   match evalfMat kb.2 with
    | some q => q.map (fun r => r.map CExpr.const)
    | none => kb.2)

/-!
### The derivative operator `bspline_derivative(c, xi, d)`

Source:
```
delta_xi = horzcat(xi[:,1:], repmat(xi[-1],1,d-1)) - horzcat(repmat(xi[0],1,d-1), xi[:,:-1])
scale = d/delta_xi
return repmat(scale, c.shape[0], 1)*(c[:,1:]-c[:,:-1])
```
CasADi's elementwise product requires matching shapes; a mismatch raises,
which we model as `none`.  `d = 0` would call `repmat(..., -1)` and also
raises. -/

/-- The source's `delta_xi`:
`horzcat(xi[:,1:], repmat(xi[-1],1,d-1)) - horzcat(repmat(xi[0],1,d-1), xi[:,:-1])`. -/
def deltaXi (xi : List ℚ) (d : ℕ) : List ℚ :=
  List.zipWith (fun a b => a - b)
    (xi.drop 1 ++ List.replicate (d - 1) (xi.getLastD 0))
    (List.replicate (d - 1) (xi.headD 0) ++ xi.dropLast)

/-- `bspline_derivative(c, xi, d)` over exact rationals.  `c` is the list of
coefficient rows, `xi` the breakpoint row vector.  `scale = d/delta_xi`, and
the result is `repmat(scale, rows, 1) * (c[:,1:] - c[:,:-1])` elementwise. -/
def bspline_derivative (c : List (List ℚ)) (xi : List ℚ) (d : ℕ) :
    Option (List (List ℚ)) :=
  if d = 0 then none
  else if c.all (fun row => row.length = (deltaXi xi d).length + 1) then
    some (c.map (fun row =>
      List.zipWith (fun s dc => s * dc) ((deltaXi xi d).map (fun q => (d : ℚ) / q))
        (List.zipWith (fun a b => a - b) (row.drop 1) row.dropLast)))
  else none

/-- The padded breakpoint vector of the derivative rule: `xi` with its first
and last entry each repeated `d - 1` additional times. -/
def xiPadded (xi : List ℚ) (d : ℕ) : List ℚ :=
  List.replicate (d - 1) (xi.headD 0) ++ xi ++ List.replicate (d - 1) (xi.getLastD 0)

/-!
### The orchestrator `OcpMultiStage` (`ocpx/ocp_multistage.py`)

`σ` is the type of Stage objects, `α` the Method's shared solver context
(`opti`), `β` the type of raw solver results.  `transcribe` abstracts the
pluggable per-stage `s._method.transcribe(s, opti)`.
-/

/-- The orchestrator state: the ordered stage list and the
transcribed-once flag. -/
structure OcpMultiStage (σ : Type) where
  stages : List σ
  is_transcribed : Bool
deriving DecidableEq, Repr

/-- Registering a stage (`stage()`): append to the ordered list. -/
def addStage {σ : Type} (m : OcpMultiStage σ) (s : σ) : OcpMultiStage σ :=
  { m with stages := m.stages ++ [s] }

/-- `solve()`: if not yet transcribed, fold `transcribe` over the stages in
registration order against the shared context and set the flag; then invoke
the NLP solver on the assembled context and wrap the result.  Returns
(solution, new orchestrator state, new solver context). -/
def solveT {σ α β : Type} (transcribe : σ → α → α) (nlpSolve : α → β)
    (m : OcpMultiStage σ) (opti : α) : β × OcpMultiStage σ × α :=
  if m.is_transcribed then (nlpSolve opti, m, opti)
  else
    let opti' := m.stages.foldl (fun o s => transcribe s o) opti
    (nlpSolve opti', { stages := m.stages, is_transcribed := true }, opti')

/-- Transcription loop with fallible `transcribe`: runs stages in order and
stops at the first error, returning the context built so far and the error
if any (the Python loop lets the exception propagate, before the
`is_transcribed = True` assignment is reached). -/
def transcribeAll {σ α ε : Type} (transcribe : σ → α → Except ε α) :
    List σ → α → α × Option ε
  | [], o => (o, none)
  | s :: rest, o =>
    match transcribe s o with
    | .ok o' => transcribeAll transcribe rest o'
    | .error e => (o, some e)

/-- `solve()` with fallible transcription: on a transcription error the
error propagates, the flag assignment is never reached, and the solver is
not invoked. -/
def solveE {σ α β ε : Type} (transcribe : σ → α → Except ε α) (nlpSolve : α → β)
    (m : OcpMultiStage σ) (opti : α) : Except ε β × OcpMultiStage σ × α :=
  if m.is_transcribed then (.ok (nlpSolve opti), m, opti)
  else
    match transcribeAll transcribe m.stages opti with
    | (o', none) => (.ok (nlpSolve o'), { stages := m.stages, is_transcribed := true }, o')
    | (o', some e) => (.error e, m, o')

/-!
### Stage deep-copy independence (claim C5)

The `Stage` class itself is not under `src/`; only its caller
`OcpMultiStage.stage` (which does `s = deepcopy(prev_stage)` and appends) is.
We model the aliasing-relevant part of a Stage explicitly: each Stage owns a
mutable constraint list living at a heap address, so that Python's
shallow-vs-deep copy distinction is expressible. -/

/-- Modelled from the spec: the mutable store of per-Stage constraint lists
(the `Stage` class with its `subject_to` constraint collection is not under
`src/`).  Address `a` holds the constraint list of the Stage that owns `a`.
`κ` is the type of constraint expressions. -/
structure StageHeap (κ : Type) where
  store : List (List κ)

/-- A Stage handle: the heap address of its own constraint list. -/
structure StageRef where
  addr : ℕ
deriving DecidableEq, Repr

/-- Modelled from the spec: `deepcopy(prev_stage)` — allocate a fresh
address holding a copy of the original's constraint list (deep copy shares
no mutable structure with the original). -/
def deepcopyStage {κ : Type} (h : StageHeap κ) (s : StageRef) :
    StageHeap κ × StageRef :=
  (⟨h.store ++ [h.store.getD s.addr []]⟩, ⟨h.store.length⟩)

/-- Modelled from the spec: `Stage.subject_to(c)` — append a constraint to
the Stage's own constraint list (mutates only the Stage's address). -/
def subjectTo {κ : Type} (h : StageHeap κ) (s : StageRef) (c : κ) : StageHeap κ :=
  ⟨h.store.set s.addr (h.store.getD s.addr [] ++ [c])⟩

/-- The number of constraints registered on a Stage. -/
def constraintCount {κ : Type} (h : StageHeap κ) (s : StageRef) : ℕ :=
  (h.store.getD s.addr []).length

/-- `OcpMultiStage.stage(prev_stage=s)`: deep-copy `s`, register the copy
on the orchestrator's stage list, and return it. -/
def stageFromPrev {κ : Type} (h : StageHeap κ) (m : OcpMultiStage StageRef)
    (s : StageRef) : StageHeap κ × OcpMultiStage StageRef × StageRef :=
  let hc := deepcopyStage h s
  (hc.1, addStage m hc.2, hc.2)

/-!
## Lemmas: partition of unity of the Cox-de Boor recursion (over `ℚ`)
-/

theorem ofRat_rat (q : ℚ) : (SplineAlg.ofRat q : ℚ) = q := rfl

/-- Telescoping step: the total mass of one Cox-de Boor step equals the mass
of the previous basis over the active window, provided no active knot span
is degenerate. -/
theorem sum_coxStep (knots : ℕ → ℚ) (numel d : ℕ) (x : ℚ) (e : ℕ) (b : ℕ → ℚ)
    (hnum : d + 2 ≤ numel)
    (hden : ∀ i, d - e + 1 ≤ i → i ≤ numel - d - 2 → knots (i + e) ≠ knots i) :
    ∑ j in Finset.range numel, coxStep knots numel d x e b j
      = ∑ i in Finset.Icc (d - e + 1) (numel - d - 2), b i := by
  set a := d - e + 1 with ha_def
  set c := numel - d - 2 with hc_def
  have ha : 1 ≤ a := Nat.le_add_left 1 (d - e)
  have hc : c < numel := by omega
  have hIccRange : Finset.Icc a c ⊆ Finset.range numel := by
    intro i hi
    rw [Finset.mem_Icc] at hi
    rw [Finset.mem_range]
    omega
  have hIccRange' : Finset.Icc a c ⊆ Finset.range (numel + 1) := by
    intro i hi
    exact Finset.mem_range.mpr (Nat.lt_succ_of_lt (Finset.mem_range.mp (hIccRange hi)))
  unfold coxStep
  rw [Finset.sum_add_distrib]
  have hleft :
      (∑ j in Finset.range numel,
        if a ≤ j ∧ j ≤ c then (x - knots j) * (b j / (knots (j + e) - knots j))
        else SplineAlg.ofRat 0)
      = ∑ i in Finset.Icc a c, (x - knots i) * (b i / (knots (i + e) - knots i)) := by
    have hmem : ∀ j : ℕ,
        (if a ≤ j ∧ j ≤ c then (x - knots j) * (b j / (knots (j + e) - knots j))
          else (SplineAlg.ofRat 0 : ℚ))
        = (if j ∈ Finset.Icc a c then (x - knots j) * (b j / (knots (j + e) - knots j))
          else 0) := by
      intro j
      rw [ofRat_rat]
      simp only [Finset.mem_Icc]
    simp only [hmem]
    rw [Finset.sum_ite_mem, Finset.inter_eq_right.mpr hIccRange]
  have hright :
      (∑ j in Finset.range numel,
        if a ≤ j + 1 ∧ j + 1 ≤ c then
          (knots (j + 1 + e) - x) * (b (j + 1) / (knots (j + 1 + e) - knots (j + 1)))
        else SplineAlg.ofRat 0)
      = ∑ i in Finset.Icc a c, (knots (i + e) - x) * (b i / (knots (i + e) - knots i)) := by
    have hshift :
        (∑ j in Finset.range numel,
          if a ≤ j + 1 ∧ j + 1 ≤ c then
            (knots (j + 1 + e) - x) * (b (j + 1) / (knots (j + 1 + e) - knots (j + 1)))
          else (0 : ℚ))
        = ∑ i in Finset.range (numel + 1),
            if a ≤ i ∧ i ≤ c then
              (knots (i + e) - x) * (b i / (knots (i + e) - knots i))
            else (0 : ℚ) := by
      rw [Finset.sum_range_succ']
      have h0 : ¬(a ≤ 0 ∧ 0 ≤ c) := by omega
      rw [if_neg h0, add_zero]
    have hOf : ∀ j : ℕ,
        (if a ≤ j + 1 ∧ j + 1 ≤ c then
          (knots (j + 1 + e) - x) * (b (j + 1) / (knots (j + 1 + e) - knots (j + 1)))
          else (SplineAlg.ofRat 0 : ℚ))
        = (if a ≤ j + 1 ∧ j + 1 ≤ c then
          (knots (j + 1 + e) - x) * (b (j + 1) / (knots (j + 1 + e) - knots (j + 1)))
          else (0 : ℚ)) := by
      intro j
      rw [ofRat_rat]
    have hmem : ∀ i : ℕ,
        (if a ≤ i ∧ i ≤ c then (knots (i + e) - x) * (b i / (knots (i + e) - knots i))
          else (0 : ℚ))
        = (if i ∈ Finset.Icc a c then (knots (i + e) - x) * (b i / (knots (i + e) - knots i))
          else 0) := by
      intro i
      simp only [Finset.mem_Icc]
    simp only [hOf]
    rw [hshift]
    simp only [hmem]
    rw [Finset.sum_ite_mem, Finset.inter_eq_right.mpr hIccRange']
  rw [hleft, hright, ← Finset.sum_add_distrib]
  refine Finset.sum_congr rfl (fun i hi => ?_)
  rw [Finset.mem_Icc] at hi
  have hD : knots (i + e) - knots i ≠ 0 :=
    sub_ne_zero.mpr (hden i hi.1 hi.2)
  have : (x - knots i) * (b i / (knots (i + e) - knots i))
      + (knots (i + e) - x) * (b i / (knots (i + e) - knots i))
      = b i / (knots (i + e) - knots i) * (knots (i + e) - knots i) := by ring
  rw [this, div_mul_cancel₀ _ hD]

/-- A Cox-de Boor step output vanishes outside `[d - e, numel - d - 2]`. -/
theorem coxStep_support (knots : ℕ → ℚ) (numel d : ℕ) (x : ℚ) (e : ℕ) (b : ℕ → ℚ)
    (j : ℕ) (hj : j < d - e ∨ numel - d - 2 < j) :
    coxStep knots numel d x e b j = 0 := by
  unfold coxStep
  rcases hj with hj | hj
  · rw [if_neg (by omega), if_neg (by omega), ofRat_rat, add_zero]
  · rw [if_neg (by omega), if_neg (by omega), ofRat_rat, add_zero]

/-- Mass invariance of the iterated recursion: after any number
`1 ≤ e ≤ d` of Cox-de Boor steps, the total mass equals the seed mass over
the first active window `[d, numel - d - 2]`. -/
theorem sum_coxIter (knots : ℕ → ℚ) (numel d : ℕ) (x : ℚ) (b : ℕ → ℚ) (e : ℕ)
    (he1 : 1 ≤ e) (hed : e ≤ d) (hnum : 2 * d + 2 ≤ numel)
    (hden : ∀ e' i, 1 ≤ e' → e' ≤ d → d - e' + 1 ≤ i → i ≤ numel - d - 2 →
      knots (i + e') ≠ knots i) :
    ∑ j in Finset.range numel, coxIter knots numel d x e b j
      = ∑ i in Finset.Icc d (numel - d - 2), b i := by
  induction e with
  | zero => omega
  | succ e ih =>
    show ∑ j in Finset.range numel,
        coxStep knots numel d x (e + 1) (coxIter knots numel d x e b) j = _
    rw [sum_coxStep knots numel d x (e + 1) _ (by omega)
      (fun i h1 h2 => hden (e + 1) i (by omega) hed h1 h2)]
    rcases Nat.eq_zero_or_pos e with h0 | hpos
    · subst h0
      have : d - (0 + 1) + 1 = d := by omega
      rw [this]
      rfl
    · have hwin : d - (e + 1) + 1 = d - e := by omega
      rw [hwin]
      have hsub : Finset.Icc (d - e) (numel - d - 2) ⊆ Finset.range numel := by
        intro i hi
        rw [Finset.mem_Icc] at hi
        rw [Finset.mem_range]
        omega
      have hzero : ∀ j ∈ Finset.range numel, j ∉ Finset.Icc (d - e) (numel - d - 2) →
          coxIter knots numel d x e b j = 0 := by
        intro j _ hj
        rw [Finset.mem_Icc] at hj
        obtain ⟨e', rfl⟩ : ∃ e', e = e' + 1 := ⟨e - 1, by omega⟩
        show coxStep knots numel d x (e' + 1) (coxIter knots numel d x e' b) j = 0
        exact coxStep_support knots numel d x (e' + 1) _ j (by omega)
      rw [Finset.sum_subset hsub hzero]
      exact ih hpos (by omega)

/-- The single-slot seed has mass `s` over the first active window. -/
theorem sum_seedSingle (ind d numel : ℕ) (s : ℚ) (hnum : 2 * d + 2 ≤ numel) :
    ∑ i in Finset.Icc d (numel - d - 2), seedSingle ind d numel s i = s := by
  unfold seedSingle
  simp only [ofRat_rat]
  rw [Finset.sum_ite_eq' (Finset.Icc d (numel - d - 2))
    (min (ind + d) (numel - d - 2)) (fun _ => s)]
  rw [if_pos]
  rw [Finset.mem_Icc]
  omega

/-- The `eval_basis_knotindex` seed has mass `s` over the first active
window (for `ind = 0` only the slot `d` of the `d + 1` seeded slots lies in
the window; the others are dropped by the first recursion step). -/
theorem sum_seedKI (ind d numel : ℕ) (s : ℚ) (hnum : 2 * d + 2 ≤ numel) :
    ∑ i in Finset.Icc d (numel - d - 2), seedKI ind d numel s i = s := by
  unfold seedKI
  rcases Nat.eq_zero_or_pos ind with h0 | hpos
  · subst h0
    simp only [if_pos rfl, if_true, ofRat_rat]
    have hcongr : ∀ i ∈ Finset.Icc d (numel - d - 2),
        (if i ≤ d then s else (0 : ℚ)) = if i = d then s else 0 := by
      intro i hi
      rw [Finset.mem_Icc] at hi
      by_cases h : i = d
      · rw [if_pos h, if_pos (by omega)]
      · rw [if_neg h, if_neg (by omega)]
    rw [Finset.sum_congr rfl hcongr]
    rw [Finset.sum_ite_eq' (Finset.Icc d (numel - d - 2)) d (fun _ => s)]
    rw [if_pos]
    rw [Finset.mem_Icc]
    omega
  · have : ¬ind = 0 := by omega
    simp only [if_neg this]
    exact sum_seedSingle ind d numel s hnum

/-- On the clamped knot vector of a strictly increasing breakpoint vector,
every knot span active in some step of the recursion is nondegenerate. -/
theorem knotsOf_den (xi : ℕ → ℚ) (n d : ℕ) (hn : 2 ≤ n)
    (hxi : ∀ a b, a < b → b < n → xi a < xi b) :
    ∀ e i, 1 ≤ e → e ≤ d → d - e + 1 ≤ i → i ≤ (n + 2 * d) - d - 2 →
      knotsOf xi n d (i + e) ≠ knotsOf xi n d i := by
  intro e i he1 hed hi1 hi2
  have hi2' : i ≤ n + d - 2 := by omega
  have hie : d + 1 ≤ i + e := by omega
  have hlt : knotsOf xi n d i < knotsOf xi n d (i + e) := by
    unfold knotsOf
    rcases Nat.lt_or_ge i d with hid | hid
    · rw [if_pos hid]
      rcases Nat.lt_or_ge (i + e) (d + n) with hin | hin
      · rw [if_neg (by omega), if_pos hin]
        exact hxi 0 (i + e - d) (by omega) (by omega)
      · rw [if_neg (by omega), if_neg (by omega)]
        exact hxi 0 (n - 1) (by omega) (by omega)
    · rw [if_neg (by omega), if_pos (by omega)]
      rcases Nat.lt_or_ge (i + e) (d + n) with hin | hin
      · rw [if_neg (by omega), if_pos hin]
        exact hxi (i - d) (i + e - d) (by omega) (by omega)
      · rw [if_neg (by omega), if_neg (by omega)]
        exact hxi (i - d) (n - 1) (by omega) (by omega)
  exact hlt.ne'

/-- Bridge between list sums over `List.range` and `Finset.range` sums. -/
theorem listSum_range_map (f : ℕ → ℚ) (m : ℕ) :
    ((List.range m).map f).sum = ∑ i in Finset.range m, f i := by
  induction m with
  | zero => simp
  | succ m ih =>
    rw [List.range_succ, List.map_append, List.sum_append, Finset.sum_range_succ, ih]
    simp

/-- Every column assembled by `eval_on_knots` is either a breakpoint column
(`eval_basis_knotindex` at a valid index) or a subsampled column at a valid
segment and sample index. -/
theorem evalOnKnotsCols_mem {α : Type} [SplineAlg α] (xi : ℕ → α) (n d sub : ℕ)
    (col : ℕ → α) (hcol : col ∈ evalOnKnotsCols xi n d sub) :
    (∃ ind, ind < n ∧ col = eval_basis_knotindex xi n d ind) ∨
    (∃ ind t, ind + 1 < n ∧ t < sub ∧
      col = eval_basis_knotindex_subsampled xi n d ind sub t) := by
  unfold evalOnKnotsCols at hcol
  rw [List.mem_flatMap] at hcol
  obtain ⟨i, hi, hmem⟩ := hcol
  rw [List.mem_range] at hi
  rcases List.mem_cons.mp hmem with h | h
  · exact Or.inl ⟨i, hi, h⟩
  · by_cases hcond : 0 < sub ∧ i + 1 < n
    · rw [if_pos hcond, List.mem_map] at h
      obtain ⟨t, ht, hcol'⟩ := h
      rw [List.mem_range] at ht
      exact Or.inr ⟨i, t, hcond.2, ht, hcol'.symm⟩
    · rw [if_neg hcond] at h
      exact absurd h (List.not_mem_nil col)

/-- The sum of the `numel - d - 1` entries of a final basis column equals
its sum over all indices (the recursion's support lies inside). -/
theorem sum_finalCol (knots : ℕ → ℚ) (numel d : ℕ) (x : ℚ) (b : ℕ → ℚ)
    (hd : 1 ≤ d) (hnum : 2 * d + 2 ≤ numel) :
    ∑ j in Finset.range (numel - d - 1), coxIter knots numel d x d b j
      = ∑ j in Finset.range numel, coxIter knots numel d x d b j := by
  obtain ⟨d', rfl⟩ : ∃ d', d = d' + 1 := ⟨d - 1, by omega⟩
  refine Finset.sum_subset (Finset.range_subset.mpr (by omega)) ?_
  · intro j _ hj
    rw [Finset.mem_range] at hj
    show coxStep knots numel (d' + 1) x (d' + 1) _ j = 0
    exact coxStep_support knots numel (d' + 1) x (d' + 1) _ j (by omega)

/-- Claim C2: for every strictly increasing breakpoint vector `xi` with more
than `d` entries and every degree `d ≥ 1`, each column of the basis matrix
returned by `eval_on_knots(xi, d, subsamples)` sums exactly to `1 + eps`
(the seeded machine epsilon), hence to 1 within `10⁻⁹`: the B-spline basis
partitions unity at the breakpoints and at the subsampled interior points. -/
theorem claim_C2 (xi : ℕ → ℚ) (n d sub : ℕ) (hd : 1 ≤ d) (hdn : d < n)
    (hxi : ∀ a b, a < b → b < n → xi a < xi b) :
    ∀ col ∈ (eval_on_knots xi n d sub).2,
      col.sum = 1 + eps64 ∧ |col.sum - 1| < 1 / 1000000000 := by
  intro col hcol
  have hn : 2 ≤ n := by omega
  have hnum : 2 * d + 2 ≤ n + 2 * d := by omega
  have hden := knotsOf_den xi n d hn hxi
  have hsum : col.sum = 1 + eps64 := by
    obtain ⟨cf, hcf, hlist⟩ := List.mem_map.mp hcol
    rw [← hlist, listSum_range_map]
    rcases evalOnKnotsCols_mem xi n d sub cf hcf with ⟨ind, _, rfl⟩ | ⟨ind, t, _, _, rfl⟩
    · show ∑ j in Finset.range (n + 2 * d - d - 1),
        coxIter (knotsOf xi n d) (n + 2 * d) d (knotsOf xi n d (ind + d)) d
          (seedKI ind d (n + 2 * d) (SplineAlg.ofRat (1 + eps64))) j = 1 + eps64
      rw [sum_finalCol _ _ _ _ _ hd hnum,
        sum_coxIter _ _ _ _ _ d hd le_rfl hnum hden,
        sum_seedKI ind d (n + 2 * d) _ hnum, ofRat_rat]
    · show ∑ j in Finset.range (n + 2 * d - d - 1),
        coxIter (knotsOf xi n d) (n + 2 * d) d (subPoint xi n d ind sub t) d
          (seedSingle ind d (n + 2 * d) (SplineAlg.ofRat (1 + eps64))) j = 1 + eps64
      rw [sum_finalCol _ _ _ _ _ hd hnum,
        sum_coxIter _ _ _ _ _ d hd le_rfl hnum hden,
        sum_seedSingle ind d (n + 2 * d) _ hnum, ofRat_rat]
  refine ⟨hsum, ?_⟩
  rw [hsum]
  rw [show (1 : ℚ) + eps64 - 1 = eps64 by ring]
  rw [abs_of_pos (by norm_num [eps64])]
  norm_num [eps64]

/-!
## Lemmas: linearity of the recursion in the seed (claim C3)
-/

/-- One Cox-de Boor step is linear in the incoming basis vector. -/
theorem coxStep_smul (knots : ℕ → ℚ) (numel d : ℕ) (x : ℚ) (e : ℕ) (c : ℚ)
    (b : ℕ → ℚ) :
    coxStep knots numel d x e (fun j => c * b j)
      = fun j => c * coxStep knots numel d x e b j := by
  funext j
  unfold coxStep
  rw [ofRat_rat]
  split_ifs with h1 h2 h2
  all_goals ring

/-- The iterated recursion is linear in the seed. -/
theorem coxIter_smul (knots : ℕ → ℚ) (numel d : ℕ) (x : ℚ) (e : ℕ) (c : ℚ)
    (b : ℕ → ℚ) :
    coxIter knots numel d x e (fun j => c * b j)
      = fun j => c * coxIter knots numel d x e b j := by
  induction e with
  | zero => rfl
  | succ e ih =>
    show coxStep knots numel d x (e + 1) (coxIter knots numel d x e fun j => c * b j) = _
    rw [ih, coxStep_smul]
    rfl

/-- The `eval_basis_knotindex` seed scales linearly in the seed value. -/
theorem seedKI_smul (ind d numel : ℕ) (c s : ℚ) :
    seedKI ind d numel (c * s) = fun j => c * seedKI ind d numel s j := by
  funext j
  unfold seedKI seedSingle
  rw [ofRat_rat]
  split_ifs <;> ring

/-!
## Lemmas: the recursion only reads the seed on the first active window
-/

/-- Two seeds that agree on the window `[d, numel - d - 2]` produce the same
basis after at least one Cox-de Boor step: the first step discards all other
entries. -/
theorem coxIter_window (knots : ℕ → ℚ) (numel d : ℕ) (x : ℚ) (b b' : ℕ → ℚ)
    (hd : 1 ≤ d)
    (hbb' : ∀ i, d ≤ i → i ≤ numel - d - 2 → b i = b' i) :
    ∀ e, 1 ≤ e → coxIter knots numel d x e b = coxIter knots numel d x e b' := by
  intro e he
  induction e with
  | zero => omega
  | succ e ih =>
    rcases Nat.eq_zero_or_pos e with h0 | hpos
    · subst h0
      show coxStep knots numel d x 1 b = coxStep knots numel d x 1 b'
      funext j
      unfold coxStep
      have hw : d - 1 + 1 = d := by omega
      rw [hw]
      congr 1
      · by_cases h : d ≤ j ∧ j ≤ numel - d - 2
        · rw [if_pos h, if_pos h, hbb' j h.1 h.2]
        · rw [if_neg h, if_neg h]
      · by_cases h : d ≤ j + 1 ∧ j + 1 ≤ numel - d - 2
        · rw [if_pos h, if_pos h, hbb' (j + 1) h.1 h.2]
        · rw [if_neg h, if_neg h]
    · show coxStep knots numel d x (e + 1) (coxIter knots numel d x e b)
        = coxStep knots numel d x (e + 1) (coxIter knots numel d x e b')
      rw [ih hpos]

/-- The two degree-0 seeds agree on the first active window: for `ind = 0`
only the slot `d` of `seedKI`'s `d + 1` seeded slots lies in the window, and
it coincides with `seedSingle`'s clamped slot `min(d, numel-d-2) = d`. -/
theorem seeds_agree_on_window (ind d numel : ℕ) (s : ℚ)
    (_hnum : 2 * d + 2 ≤ numel) :
    ∀ i, d ≤ i → i ≤ numel - d - 2 →
      seedSingle ind d numel s i = seedKI ind d numel s i := by
  intro i hi1 hi2
  unfold seedKI seedSingle
  rcases Nat.eq_zero_or_pos ind with h0 | hpos
  · subst h0
    have hmin : min (0 + d) (numel - d - 2) = d := by
      rw [Nat.zero_add]
      exact min_eq_left (by omega)
    rw [if_pos rfl, hmin]
    by_cases h : i = d
    · rw [if_pos h, if_pos (by omega)]
    · rw [if_neg h, if_neg (by omega)]
  · rw [if_neg (show ¬ind = 0 by omega)]

/-!
## Claims C3, C7, C9
-/

/-- The seeded factor `1 + eps` scales out of the whole recursion, for every
knot index — including `ind = 0`, where all `d + 1` seeded slots carry the
perturbation. -/
theorem eval_basis_knotindex_scale (xi : ℕ → ℚ) (n d ind j : ℕ) :
    eval_basis_knotindex xi n d ind j
      = (1 + eps64) * evalBasisKnotindexS xi n d ind 1 j := by
  show coxIter (knotsOf xi n d) (n + 2 * d) d (knotsOf xi n d (ind + d)) d
      (seedKI ind d (n + 2 * d) (SplineAlg.ofRat (1 + eps64))) j = _
  have hseed : seedKI ind d (n + 2 * d) (SplineAlg.ofRat (1 + eps64) : ℚ)
      = fun j => (1 + eps64) * seedKI ind d (n + 2 * d) 1 j := by
    rw [ofRat_rat, show (1 + eps64 : ℚ) = (1 + eps64) * 1 by ring,
      seedKI_smul ind d (n + 2 * d) (1 + eps64) 1]
    funext j
    ring
  rw [hseed, coxIter_smul]
  rfl

/-- Claim C3: the degree-0 seed of `eval_basis_knotindex` is zero except
that for `ind > 0` the single slot `min(ind+d, numel-d-2)` holds
`1 + eps`, and for `ind = 0` the first `d + 1` slots each hold `1 + eps`
(`eps` the double-precision machine epsilon); the Cox-de Boor recursion is
applied `d` times to this seed, and the epsilon perturbation only rescales
every evaluated basis value by the factor `1 + eps` — at every knot index,
the left-boundary index 0 included: the deviation from the unperturbed
value is exactly `eps` times that value. -/
theorem claim_C3 (xi : ℕ → ℚ) (n d numel ind j : ℕ) (hind : 0 < ind) :
    seedKI ind d numel (1 + eps64) j
      = (if j = min (ind + d) (numel - d - 2) then 1 + eps64 else 0) ∧
    seedKI 0 d numel (1 + eps64) j = (if j ≤ d then 1 + eps64 else 0) ∧
    eval_basis_knotindex xi n d ind j
      = (1 + eps64) * evalBasisKnotindexS xi n d ind 1 j ∧
    eval_basis_knotindex xi n d ind j - evalBasisKnotindexS xi n d ind 1 j
      = eps64 * evalBasisKnotindexS xi n d ind 1 j ∧
    eval_basis_knotindex xi n d 0 j
      = (1 + eps64) * evalBasisKnotindexS xi n d 0 1 j ∧
    eval_basis_knotindex xi n d 0 j - evalBasisKnotindexS xi n d 0 1 j
      = eps64 * evalBasisKnotindexS xi n d 0 1 j := by
  have hscale := eval_basis_knotindex_scale xi n d ind j
  have hscale0 := eval_basis_knotindex_scale xi n d 0 j
  refine ⟨?_, ?_, hscale, by rw [hscale]; ring, hscale0, by rw [hscale0]; ring⟩
  · unfold seedKI seedSingle
    rw [if_neg (by omega), ofRat_rat]
  · unfold seedKI
    rw [if_pos rfl, ofRat_rat]

/-- Claim C7 (amended): `eval_basis_knotindex_subsampled` runs the identical
Cox-de Boor recursion at the `N` uniformly interpolated points strictly
between `knots[ind+d]` and `knots[ind+d+1]` (both endpoints excluded), and
its column `t` equals what the `eval_basis_knotindex` recursion — run from
`eval_basis_knotindex`'s own seed — would produce at that interior point.
(The degree-0 seeds themselves differ at `ind = 0`, where `seedKI` also
fills the first `d` slots; the first recursion step discards them, so the
resulting columns nevertheless agree — see `claim_C7_counterexample`.) -/
theorem claim_C7 (xi : ℕ → ℚ) (n d ind N t : ℕ)
    (hd : 1 ≤ d) (hn : 2 ≤ n) (hind : ind + 1 < n) (ht : t < N)
    (hxi : ∀ a b, a < b → b < n → xi a < xi b) :
    eval_basis_knotindex_subsampled xi n d ind N t
      = coxIter (knotsOf xi n d) (n + 2 * d) d (subPoint xi n d ind N t) d
          (seedKI ind d (n + 2 * d) (SplineAlg.ofRat (1 + eps64))) ∧
    knotsOf xi n d (ind + d) < subPoint xi n d ind N t ∧
    subPoint xi n d ind N t < knotsOf xi n d (ind + d + 1) := by
  have hnum : 2 * d + 2 ≤ n + 2 * d := by omega
  constructor
  · exact coxIter_window (knotsOf xi n d) (n + 2 * d) d
      (subPoint xi n d ind N t) _ _ hd
      (seeds_agree_on_window ind d (n + 2 * d) _ hnum) d hd
  · have hkl : knotsOf xi n d (ind + d) = xi ind := by
      unfold knotsOf
      rw [if_neg (by omega), if_pos (by omega)]
      congr 1
      omega
    have hkr : knotsOf xi n d (ind + d + 1) = xi (ind + 1) := by
      unfold knotsOf
      rw [if_neg (by omega), if_pos (by omega)]
      congr 1
      omega
    have hab : xi ind < xi (ind + 1) := hxi ind (ind + 1) (by omega) hind
    have hτ0 : (0 : ℚ) < ((t : ℚ) + 1) / ((N : ℚ) + 1) := by positivity
    have hτ1 : ((t : ℚ) + 1) / ((N : ℚ) + 1) < 1 := by
      rw [div_lt_one (by positivity)]
      have : (t : ℚ) < (N : ℚ) := by exact_mod_cast ht
      linarith
    simp only [subPoint, ofRat_rat]
    rw [hkl, hkr]
    constructor
    · nlinarith [mul_pos hτ0 (sub_pos.mpr hab)]
    · nlinarith [mul_pos (sub_pos.mpr hτ1) (sub_pos.mpr hab)]

/-- Claim C7, counterexample to the literal seed statement: at `ind = 0`
(degree 1, five knots) the degree-0 seed of `eval_basis_knotindex` holds
`1 + eps` in slot 0, while the seed of `eval_basis_knotindex_subsampled`
holds 0 there — the two starting vectors are not the same. -/
theorem claim_C7_counterexample :
    seedKI 0 1 5 ((1 : ℚ) + eps64) 0 = 1 + eps64 ∧
    seedSingle 0 1 5 ((1 : ℚ) + eps64) 0 = 0 ∧
    seedKI 0 1 5 ((1 : ℚ) + eps64) 0 ≠ seedSingle 0 1 5 ((1 : ℚ) + eps64) 0 := by
  refine ⟨?_, ?_, ?_⟩ <;>
    norm_num [seedKI, seedSingle, SplineAlg.ofRat, eps64]

/-- The breakpoint vector `[0, 1/2, 1]` of the spec's degree-0 reproduction
test. -/
def xiC : ℕ → ℚ := fun j => [0, 1/2, 1].getD j 0

/-- Claim C9: for degree `d = 1` and breakpoints `[0, 0.5, 1]`, the column
of `eval_on_knots` at the subsample midpoint `x = 0.25` of the first
segment carries exactly the linear interpolation weights `[0.5, 0.5, 0]`
scaled by the seeded factor `1 + eps`. -/
theorem claim_C9 :
    (eval_on_knots xiC 3 1 1).1.getD 1 0 = 1 / 4 ∧
    (eval_on_knots xiC 3 1 1).2.getD 1 []
      = [(1 + eps64) / 2, (1 + eps64) / 2, 0] := by
  constructor
  · norm_num [eval_on_knots, evalOnKnotsK, kInterp, xiC, List.range_succ,
      SplineAlg.ofRat]
  · norm_num [eval_on_knots, evalOnKnotsCols, colsToMat, eval_basis_knotindex,
      eval_basis_knotindex_subsampled, evalBasisKnotindexS, evalBasisSubColS,
      coxIter, coxStep, seedKI, seedSingle, knotsOf, subPoint, xiC,
      List.range_succ, SplineAlg.ofRat, eps64]

/-!
## Lemmas: the derivative operator (claim C4)
-/

theorem getD_replicate_of_lt {a : ℚ} {m i : ℕ} (h : i < m) :
    (List.replicate m a).getD i 0 = a := by
  rw [List.getD_eq_getElem _ _ (by simpa using h)]
  exact List.getElem_replicate _ _

theorem xiPadded_getD_left (xi : List ℚ) (d j : ℕ) (hj : j < d - 1) :
    (xiPadded xi d).getD j 0 = xi.headD 0 := by
  unfold xiPadded
  rw [List.getD_append _ _ _ _
    (by simp only [List.length_append, List.length_replicate]; omega)]
  rw [List.getD_append _ _ _ _ (by simp only [List.length_replicate]; omega)]
  exact getD_replicate_of_lt hj

theorem xiPadded_getD_mid (xi : List ℚ) (d j : ℕ)
    (h1 : d - 1 ≤ j) (h2 : j < d - 1 + xi.length) :
    (xiPadded xi d).getD j 0 = xi.getD (j - (d - 1)) 0 := by
  unfold xiPadded
  rw [List.getD_append _ _ _ _
    (by simp only [List.length_append, List.length_replicate]; omega)]
  rw [List.getD_append_right _ _ _ _ (by simp only [List.length_replicate]; omega)]
  rw [List.length_replicate]

theorem xiPadded_getD_right (xi : List ℚ) (d j : ℕ)
    (h1 : d - 1 + xi.length ≤ j) (h2 : j < xi.length + 2 * (d - 1)) :
    (xiPadded xi d).getD j 0 = xi.getLastD 0 := by
  unfold xiPadded
  rw [List.getD_append_right _ _ _ _
    (by simp only [List.length_append, List.length_replicate]; omega)]
  exact getD_replicate_of_lt
    (by simp only [List.length_append, List.length_replicate]; omega)

/-- Entry `k` of the source's `delta_xi` equals the padded-breakpoint span
`xi_padded[k+d] - xi_padded[k]` of the spec's derivative rule. -/
theorem delta_xi_getD (xi : List ℚ) (d k : ℕ) (hd : 1 ≤ d) (hn : 2 ≤ xi.length)
    (hk : k < xi.length + d - 2) :
    (deltaXi xi d).getD k 0
      = (xiPadded xi d).getD (k + d) 0 - (xiPadded xi d).getD k 0 := by
  unfold deltaXi
  set n := xi.length with hn_def
  have hlenA : (xi.drop 1 ++ List.replicate (d - 1) (xi.getLastD 0)).length
      = n + d - 2 := by
    simp only [List.length_append, List.length_drop, List.length_replicate]
    omega
  have hlenB : (List.replicate (d - 1) (xi.headD 0) ++ xi.dropLast).length
      = n + d - 2 := by
    simp only [List.length_append, List.length_dropLast, List.length_replicate]
    omega
  have hA : (xi.drop 1 ++ List.replicate (d - 1) (xi.getLastD 0)).getD k 0
      = (xiPadded xi d).getD (k + d) 0 := by
    by_cases hkn : k < n - 1
    · rw [List.getD_append _ _ _ _ (by simp only [List.length_drop]; omega)]
      rw [List.getD_eq_getElem _ _ (by simp only [List.length_drop]; omega)]
      rw [List.getElem_drop]
      rw [← List.getD_eq_getElem _ (0 : ℚ) (by omega)]
      rw [xiPadded_getD_mid xi d (k + d) (by omega) (by omega)]
      congr 1
      omega
    · rw [List.getD_append_right _ _ _ _ (by simp only [List.length_drop]; omega)]
      rw [getD_replicate_of_lt (by simp only [List.length_drop]; omega)]
      rw [xiPadded_getD_right xi d (k + d) (by omega) (by omega)]
  have hB : (List.replicate (d - 1) (xi.headD 0) ++ xi.dropLast).getD k 0
      = (xiPadded xi d).getD k 0 := by
    by_cases hkd : k < d - 1
    · rw [List.getD_append _ _ _ _ (by simp only [List.length_replicate]; omega)]
      rw [getD_replicate_of_lt hkd]
      rw [xiPadded_getD_left xi d k hkd]
    · rw [List.getD_append_right _ _ _ _ (by simp only [List.length_replicate]; omega)]
      rw [List.length_replicate]
      rw [List.getD_eq_getElem _ _ (by simp only [List.length_dropLast]; omega)]
      rw [List.getElem_dropLast]
      rw [← List.getD_eq_getElem _ (0 : ℚ) (by omega)]
      rw [xiPadded_getD_mid xi d k (by omega) (by omega)]
  rw [List.getD_eq_getElem _ _
    (by rw [List.length_zipWith, hlenA, hlenB, Nat.min_self]; omega)]
  rw [List.getElem_zipWith]
  rw [← List.getD_eq_getElem _ (0 : ℚ) (by rw [hlenA]; omega)]
  rw [← List.getD_eq_getElem _ (0 : ℚ) (by rw [hlenB]; omega)]
  rw [hA, hB]

theorem deltaXi_length (xi : List ℚ) (d : ℕ) (hd : 1 ≤ d) (hn : 1 ≤ xi.length) :
    (deltaXi xi d).length = xi.length + d - 2 := by
  unfold deltaXi
  rw [List.length_zipWith]
  simp only [List.length_append, List.length_drop, List.length_replicate,
    List.length_dropLast]
  rw [show xi.length - 1 + (d - 1) = d - 1 + (xi.length - 1) by omega, Nat.min_self]
  omega

/-- When every coefficient row has the matching `n + d - 1` entries, the
shape check passes and `bspline_derivative` returns the mapped rows. -/
theorem bspline_derivative_some (c : List (List ℚ)) (xi : List ℚ) (d : ℕ)
    (hd : 1 ≤ d) (hn : 2 ≤ xi.length)
    (hc : ∀ row ∈ c, row.length = xi.length + d - 1) :
    bspline_derivative c xi d
      = some (c.map (fun row =>
          List.zipWith (fun s dc => s * dc)
            ((deltaXi xi d).map (fun q => (d : ℚ) / q))
            (List.zipWith (fun a b => a - b) (row.drop 1) row.dropLast))) := by
  unfold bspline_derivative
  rw [if_neg (by omega)]
  rw [if_pos]
  rw [List.all_eq_true]
  intro row hrow
  rw [decide_eq_true_eq, hc row hrow, deltaXi_length xi d hd (by omega)]
  omega

/-- Claim C4 (amended): for `d ≥ 1`, breakpoints `xi` of length `n ≥ 2` and
coefficient rows of length `n + d - 1` (the B-spline coefficient count for
degree `d` — not `n`, see `claim_C4_counterexample`), `bspline_derivative`
returns the matrix with `n + d - 2` columns whose entry `k` is
`d * (c[k+1] - c[k]) / (xi_padded[k+d] - xi_padded[k])`, `xi_padded`
repeating the first and last breakpoint `d - 1` extra times; the result has
the coefficient count of degree `d - 1`, so repeated application is
well-formed down to degree 0. -/
theorem claim_C4 (c : List (List ℚ)) (xi : List ℚ) (d : ℕ)
    (hd : 1 ≤ d) (hn : 2 ≤ xi.length)
    (hc : ∀ row ∈ c, row.length = xi.length + d - 1) :
    ∃ out, bspline_derivative c xi d = some out ∧
      out.length = c.length ∧
      (∀ row ∈ out, row.length = xi.length + d - 2) ∧
      (∀ r k, r < c.length → k < xi.length + d - 2 →
        (out.getD r []).getD k 0
          = d * ((c.getD r []).getD (k + 1) 0 - (c.getD r []).getD k 0)
            / ((xiPadded xi d).getD (k + d) 0 - (xiPadded xi d).getD k 0)) ∧
      (2 ≤ d → ∃ out2, bspline_derivative out xi (d - 1) = some out2) := by
  have hdlen : (deltaXi xi d).length = xi.length + d - 2 :=
    deltaXi_length xi d hd (by omega)
  refine ⟨_, bspline_derivative_some c xi d hd hn hc, List.length_map _ _, ?_, ?_, ?_⟩
  · intro row hrow
    rw [List.mem_map] at hrow
    obtain ⟨r, hr, rfl⟩ := hrow
    rw [List.length_zipWith, List.length_zipWith, List.length_map, hdlen,
      List.length_drop, List.length_dropLast, hc r hr]
    omega
  · intro r k hr hk
    have hrowlen : (c.getD r []).length = xi.length + d - 1 :=
      hc _ (by rw [List.getD_eq_getElem _ _ hr]; exact List.getElem_mem hr)
    have hout : (List.map (fun row =>
        List.zipWith (fun s dc => s * dc)
          ((deltaXi xi d).map (fun q => (d : ℚ) / q))
          (List.zipWith (fun a b => a - b) (row.drop 1) row.dropLast)) c).getD r []
        = List.zipWith (fun s dc => s * dc)
            ((deltaXi xi d).map (fun q => (d : ℚ) / q))
            (List.zipWith (fun a b => a - b)
              ((c.getD r []).drop 1) (c.getD r []).dropLast) := by
      rw [List.getD_eq_getElem _ _ (by rw [List.length_map]; exact hr),
        List.getElem_map, List.getD_eq_getElem _ _ hr]
    rw [hout]
    have hinlen : (List.zipWith (fun a b => a - b)
        ((c.getD r []).drop 1) (c.getD r []).dropLast).length = xi.length + d - 2 := by
      rw [List.length_zipWith, List.length_drop, List.length_dropLast, hrowlen]
      omega
    rw [List.getD_eq_getElem _ _ (by
      rw [List.length_zipWith, List.length_map, hdlen, hinlen]
      omega)]
    rw [List.getElem_zipWith, List.getElem_map, List.getElem_zipWith]
    rw [List.getElem_drop, List.getElem_dropLast]
    rw [← List.getD_eq_getElem (deltaXi xi d) (0 : ℚ) (by omega)]
    rw [delta_xi_getD xi d k hd hn hk]
    rw [← List.getD_eq_getElem (c.getD r []) (0 : ℚ) (by omega)]
    rw [← List.getD_eq_getElem (c.getD r []) (0 : ℚ) (by omega)]
    rw [show 1 + k = k + 1 by omega]
    ring
  · intro hd2
    refine ⟨_, bspline_derivative_some _ xi (d - 1) (by omega) hn ?_⟩
    intro row hrow
    rw [List.mem_map] at hrow
    obtain ⟨r, hr, rfl⟩ := hrow
    rw [List.length_zipWith, List.length_zipWith, List.length_map, hdlen,
      List.length_drop, List.length_dropLast, hc r hr]
    omega

/-- Claim C4, counterexample: with `n = 3` breakpoints, degree `d = 2` and a
coefficient matrix of `n = 3` columns (as the claim demands), the source's
`scale` vector has `n + d - 2 = 3` entries while `c[:,1:] - c[:,:-1]` has
`n - 1 = 2` columns; the elementwise product is shape-mismatched and the
call fails instead of returning the claimed `n - 1`-column matrix. -/
theorem claim_C4_counterexample :
    bspline_derivative [[0, 0, 0]] [0, 1, 2] 2 = none := by
  rfl

/-!
## Lemmas and claims: the orchestrator (C1, C6, C10) and Stage deep copy (C5)
-/

theorem foldl_append_singleton {σ : Type} (l acc : List σ) :
    l.foldl (fun a s => a ++ [s]) acc = acc ++ l := by
  induction l generalizing acc with
  | nil => simp
  | cons s rest ih => simp [List.foldl_cons, ih]

/-- Claim C1: on an untranscribed orchestrator, `solve()` folds the Method's
`transcribe` over the stages in registration order exactly once each (the
instrumented log equals the stage list), marks the orchestrator transcribed,
and a second `solve()` transcribes nothing: it returns the identical solver
context and state and re-invokes only the solver on that same context, so
the registered decision variables and the solution are identical across the
two calls. -/
theorem claim_C1 {σ α β : Type} (transcribe : σ → α → α) (nlpSolve : α → β)
    (m : OcpMultiStage σ) (opti : α) (h : m.is_transcribed = false) :
    (solveT transcribe nlpSolve m opti).2.2
        = m.stages.foldl (fun o s => transcribe s o) opti ∧
    (solveT transcribe nlpSolve m opti).2.1.is_transcribed = true ∧
    (solveT transcribe nlpSolve m opti).2.1.stages = m.stages ∧
    solveT transcribe nlpSolve
        (solveT transcribe nlpSolve m opti).2.1
        (solveT transcribe nlpSolve m opti).2.2
      = (nlpSolve (solveT transcribe nlpSolve m opti).2.2,
         (solveT transcribe nlpSolve m opti).2.1,
         (solveT transcribe nlpSolve m opti).2.2) ∧
    (solveT (fun (s : σ) (log : List σ) => log ++ [s]) (fun l => l) m []).2.2
      = m.stages := by
  refine ⟨by simp [solveT, h], by simp [solveT, h], by simp [solveT, h],
    by simp [solveT, h], ?_⟩
  simp [solveT, h, foldl_append_singleton]

/-- Claim C6: if a stage's `transcribe` raises during the first `solve()`,
the error propagates, the orchestrator state is unchanged — in particular
`is_transcribed` is still false — and a subsequent `solve()` (with a
possibly corrected Method) runs the transcription loop again over all
stages from the start. -/
theorem claim_C6 {σ α β ε : Type} (transcribe transcribe2 : σ → α → Except ε α)
    (nlpSolve : α → β) (m : OcpMultiStage σ) (opti opti2 : α) (e : ε)
    (h : m.is_transcribed = false)
    (hfail : (transcribeAll transcribe m.stages opti).2 = some e) :
    (solveE transcribe nlpSolve m opti).2.1 = m ∧
    (solveE transcribe nlpSolve m opti).2.1.is_transcribed = false ∧
    (solveE transcribe nlpSolve m opti).1 = Except.error e ∧
    solveE transcribe2 nlpSolve m opti2
      = (match transcribeAll transcribe2 m.stages opti2 with
         | (o', none) =>
            (Except.ok (nlpSolve o'), { stages := m.stages, is_transcribed := true }, o')
         | (o', some e') => (Except.error e', m, o')) := by
  have hsplit : transcribeAll transcribe m.stages opti
      = ((transcribeAll transcribe m.stages opti).1, some e) := by
    rw [← hfail]
  refine ⟨?_, ?_, ?_, ?_⟩
  · simp only [solveE, h]
    rw [hsplit]
    simp
  · simp only [solveE, h]
    rw [hsplit]
    simp [h]
  · simp only [solveE, h]
    rw [hsplit]
    simp
  · simp only [solveE, h]
    simp

/-- Claim C10: a Stage registered after the first successful `solve()` is
never transcribed by later `solve()` calls: the flag is already set, so the
second and third calls leave the solver context untouched — the late stage
contributes no decision variables, constraints, or objective terms to the
NLP that is solved. -/
theorem claim_C10 {σ α β : Type} (transcribe : σ → α → α) (nlpSolve : α → β)
    (m : OcpMultiStage σ) (opti : α) (s : σ) (h : m.is_transcribed = false) :
    (addStage (solveT transcribe nlpSolve m opti).2.1 s).stages
        = m.stages ++ [s] ∧
    (solveT transcribe nlpSolve (addStage (solveT transcribe nlpSolve m opti).2.1 s)
        (solveT transcribe nlpSolve m opti).2.2).2.2
      = (solveT transcribe nlpSolve m opti).2.2 ∧
    (solveT transcribe nlpSolve (addStage (solveT transcribe nlpSolve m opti).2.1 s)
        (solveT transcribe nlpSolve m opti).2.2).1
      = nlpSolve (solveT transcribe nlpSolve m opti).2.2 ∧
    (solveT transcribe nlpSolve (addStage (solveT transcribe nlpSolve m opti).2.1 s)
        (solveT transcribe nlpSolve m opti).2.2).2.1
      = addStage (solveT transcribe nlpSolve m opti).2.1 s := by
  refine ⟨by simp [solveT, addStage, h], ?_, ?_, ?_⟩ <;>
    simp [solveT, addStage, h]

theorem getD_set_ne {κ : Type} (l : List (List κ)) (i j : ℕ) (a : List κ)
    (hij : i ≠ j) : (l.set i a).getD j [] = l.getD j [] := by
  rw [List.getD_eq_getElem?_getD, List.getD_eq_getElem?_getD,
    List.getElem?_set_ne hij]

/-- Claim C5: `stage(prev_stage=s)` deep-copies `s` into a fresh Stage `s2`
registered on the orchestrator; the copy starts with `s`'s constraint
count, and adding a constraint to either of the two stages leaves the other
one's constraint count unchanged (full aliasing independence, both ways). -/
theorem claim_C5 {κ : Type} (h : StageHeap κ) (m : OcpMultiStage StageRef)
    (s : StageRef) (c c' : κ) (hs : s.addr < h.store.length) :
    (stageFromPrev h m s).2.2.addr ≠ s.addr ∧
    (stageFromPrev h m s).2.1.stages = m.stages ++ [(stageFromPrev h m s).2.2] ∧
    constraintCount (stageFromPrev h m s).1 (stageFromPrev h m s).2.2
        = constraintCount h s ∧
    constraintCount (stageFromPrev h m s).1 s = constraintCount h s ∧
    constraintCount (subjectTo (stageFromPrev h m s).1 (stageFromPrev h m s).2.2 c) s
        = constraintCount (stageFromPrev h m s).1 s ∧
    constraintCount (subjectTo (stageFromPrev h m s).1 s c') (stageFromPrev h m s).2.2
        = constraintCount (stageFromPrev h m s).1 (stageFromPrev h m s).2.2 := by
  have haddr : (stageFromPrev h m s).2.2.addr = h.store.length := rfl
  have hne : (stageFromPrev h m s).2.2.addr ≠ s.addr := by
    rw [haddr]
    omega
  refine ⟨hne, rfl, ?_, ?_, ?_, ?_⟩
  · show ((h.store ++ [h.store.getD s.addr []]).getD h.store.length []).length
        = (h.store.getD s.addr []).length
    rw [List.getD_append_right _ _ _ _ le_rfl, Nat.sub_self]
    rfl
  · show ((h.store ++ [h.store.getD s.addr []]).getD s.addr []).length
        = (h.store.getD s.addr []).length
    rw [List.getD_append _ _ _ _ hs]
  · show (((h.store ++ [h.store.getD s.addr []]).set h.store.length
        ((h.store ++ [h.store.getD s.addr []]).getD h.store.length [] ++ [c])).getD
          s.addr []).length
        = ((h.store ++ [h.store.getD s.addr []]).getD s.addr []).length
    rw [getD_set_ne _ _ _ _ (by omega)]
  · show (((h.store ++ [h.store.getD s.addr []]).set s.addr
        ((h.store ++ [h.store.getD s.addr []]).getD s.addr [] ++ [c'])).getD
          h.store.length []).length
        = ((h.store ++ [h.store.getD s.addr []]).getD h.store.length []).length
    rw [getD_set_ne _ _ _ _ (by omega)]

/-!
## Lemmas: symbolic/numeric duality of `eval_on_knots` (claim C8)
-/

theorem symFree_add (a b : CExpr) : symFree (a + b) = (symFree a && symFree b) := rfl

theorem symFree_sub (a b : CExpr) : symFree (a - b) = (symFree a && symFree b) := rfl

theorem symFree_mul (a b : CExpr) : symFree (a * b) = (symFree a && symFree b) := rfl

theorem symFree_div (a b : CExpr) : symFree (a / b) = (symFree a && symFree b) := rfl

theorem symFree_ofRat (q : ℚ) : symFree (SplineAlg.ofRat q : CExpr) = true := rfl

/-- A purely numeric expression graph always reduces. -/
theorem evalfE_isSome_of_symFree (e : CExpr) (he : symFree e = true) :
    (evalfE e).isSome = true := by
  induction e with
  | const q => rfl
  | sym i => exact absurd he (by rw [symFree]; exact Bool.false_ne_true)
  | add a b iha ihb =>
    rw [symFree, Bool.and_eq_true] at he
    obtain ⟨x, hx⟩ := Option.isSome_iff_exists.mp (iha he.1)
    obtain ⟨y, hy⟩ := Option.isSome_iff_exists.mp (ihb he.2)
    simp [evalfE, hx, hy]
  | sub a b iha ihb =>
    rw [symFree, Bool.and_eq_true] at he
    obtain ⟨x, hx⟩ := Option.isSome_iff_exists.mp (iha he.1)
    obtain ⟨y, hy⟩ := Option.isSome_iff_exists.mp (ihb he.2)
    simp [evalfE, hx, hy]
  | mul a b iha ihb =>
    rw [symFree, Bool.and_eq_true] at he
    obtain ⟨x, hx⟩ := Option.isSome_iff_exists.mp (iha he.1)
    obtain ⟨y, hy⟩ := Option.isSome_iff_exists.mp (ihb he.2)
    simp [evalfE, hx, hy]
  | div a b iha ihb =>
    rw [symFree, Bool.and_eq_true] at he
    obtain ⟨x, hx⟩ := Option.isSome_iff_exists.mp (iha he.1)
    obtain ⟨y, hy⟩ := Option.isSome_iff_exists.mp (ihb he.2)
    simp [evalfE, hx, hy]

theorem knotsOf_symFree (xi : ℕ → CExpr) (n d : ℕ)
    (hxi : ∀ i, symFree (xi i) = true) (j : ℕ) :
    symFree (knotsOf xi n d j) = true := by
  unfold knotsOf
  split_ifs <;> exact hxi _

theorem seedSingle_symFree (ind d numel : ℕ) (s : CExpr)
    (hs : symFree s = true) (j : ℕ) :
    symFree (seedSingle ind d numel s j) = true := by
  unfold seedSingle
  split_ifs
  · exact hs
  · rfl

theorem seedKI_symFree (ind d numel : ℕ) (s : CExpr)
    (hs : symFree s = true) (j : ℕ) :
    symFree (seedKI ind d numel s j) = true := by
  unfold seedKI
  split_ifs
  · exact hs
  · rfl
  · exact seedSingle_symFree ind d numel s hs j

theorem coxStep_symFree (knots : ℕ → CExpr) (numel d : ℕ) (x : CExpr) (e : ℕ)
    (b : ℕ → CExpr) (hk : ∀ j, symFree (knots j) = true)
    (hx : symFree x = true) (hb : ∀ j, symFree (b j) = true) (j : ℕ) :
    symFree (coxStep knots numel d x e b j) = true := by
  unfold coxStep
  split_ifs <;>
    simp [symFree_add, symFree_sub, symFree_mul, symFree_div, symFree_ofRat,
      hk, hx, hb]

theorem coxIter_symFree (knots : ℕ → CExpr) (numel d : ℕ) (x : CExpr) (e : ℕ)
    (b : ℕ → CExpr) (hk : ∀ j, symFree (knots j) = true)
    (hx : symFree x = true) (hb : ∀ j, symFree (b j) = true) (j : ℕ) :
    symFree (coxIter knots numel d x e b j) = true := by
  induction e generalizing j with
  | zero => exact hb j
  | succ e ih =>
    show symFree (coxStep knots numel d x (e + 1) (coxIter knots numel d x e b) j) = true
    exact coxStep_symFree knots numel d x (e + 1) _ hk hx (fun j => ih j) j

theorem subPoint_symFree (xi : ℕ → CExpr) (n d ind N t : ℕ)
    (hxi : ∀ i, symFree (xi i) = true) :
    symFree (subPoint xi n d ind N t) = true := by
  unfold subPoint
  simp [symFree_add, symFree_sub, symFree_mul, symFree_ofRat,
    knotsOf_symFree xi n d hxi]

theorem kInterp_symFree (xi : ℕ → CExpr) (N i t : ℕ)
    (hxi : ∀ i, symFree (xi i) = true) :
    symFree (kInterp xi N i t) = true := by
  unfold kInterp
  simp [symFree_add, symFree_sub, symFree_mul, symFree_ofRat, hxi]

/-- Every entry of the assembled basis matrix is symbol-free when the
breakpoints are. -/
theorem evalOnKnots_basis_symFree (xi : ℕ → CExpr) (n d sub : ℕ)
    (hxi : ∀ i, symFree (xi i) = true) :
    ∀ row ∈ (eval_on_knots xi n d sub).2, ∀ x ∈ row, symFree x = true := by
  intro row hrow x hx
  obtain ⟨cf, hcf, rfl⟩ := List.mem_map.mp hrow
  obtain ⟨j, _, rfl⟩ := List.mem_map.mp hx
  rcases evalOnKnotsCols_mem xi n d sub cf hcf with ⟨ind, _, rfl⟩ | ⟨ind, t, _, _, rfl⟩
  · exact coxIter_symFree _ _ _ _ _ _ (knotsOf_symFree xi n d hxi)
      (knotsOf_symFree xi n d hxi _)
      (seedKI_symFree _ _ _ _ (symFree_ofRat _)) j
  · exact coxIter_symFree _ _ _ _ _ _ (knotsOf_symFree xi n d hxi)
      (subPoint_symFree xi n d ind sub t hxi)
      (seedSingle_symFree _ _ _ _ (symFree_ofRat _)) j

/-- Every entry of the assembled coordinate vector is symbol-free when the
breakpoints are. -/
theorem evalOnKnots_k_symFree (xi : ℕ → CExpr) (n d sub : ℕ)
    (hxi : ∀ i, symFree (xi i) = true) :
    ∀ x ∈ (eval_on_knots xi n d sub).1, symFree x = true := by
  intro x hx
  rw [show (eval_on_knots xi n d sub).1 = evalOnKnotsK xi n sub from rfl] at hx
  unfold evalOnKnotsK at hx
  rw [List.mem_flatMap] at hx
  obtain ⟨i, _, hmem⟩ := hx
  rcases List.mem_cons.mp hmem with rfl | hmem'
  · exact hxi i
  · by_cases hcond : 0 < sub ∧ i + 1 < n
    · rw [if_pos hcond, List.mem_map] at hmem'
      obtain ⟨t, _, rfl⟩ := hmem'
      exact kInterp_symFree xi sub i t hxi
    · rw [if_neg hcond] at hmem'
      exact absurd hmem' (List.not_mem_nil x)

theorem evalfVec_isSome (l : List CExpr) (hl : ∀ x ∈ l, symFree x = true) :
    (evalfVec l).isSome = true := by
  induction l with
  | nil => rfl
  | cons a t ih =>
    obtain ⟨x, hx⟩ := Option.isSome_iff_exists.mp
      (evalfE_isSome_of_symFree a (hl a (List.mem_cons_self a t)))
    obtain ⟨v, hv⟩ := Option.isSome_iff_exists.mp
      (ih (fun y hy => hl y (List.mem_cons_of_mem a hy)))
    unfold evalfVec
    simp [hx, hv]

theorem evalfMat_isSome (m : List (List CExpr))
    (hm : ∀ row ∈ m, ∀ x ∈ row, symFree x = true) :
    (evalfMat m).isSome = true := by
  induction m with
  | nil => rfl
  | cons r t ih =>
    obtain ⟨x, hx⟩ := Option.isSome_iff_exists.mp
      (evalfVec_isSome r (hm r (List.mem_cons_self r t)))
    obtain ⟨v, hv⟩ := Option.isSome_iff_exists.mp
      (ih (fun row hrow => hm row (List.mem_cons_of_mem r hrow)))
    unfold evalfMat
    simp [hx, hv]

/-- Claim C8: `eval_on_knots` never branches on numeric-vs-symbolic inputs
except in the final best-effort reduction: with purely numeric inputs both
returned components are fully reduced to concrete numeric leaves, and when
reduction of a component fails (symbolic inputs) that component is returned
as its unchanged symbolic expression graph — no error path exists. -/
theorem claim_C8 (xi xiSym : ℕ → CExpr) (n d sub n2 d2 sub2 : ℕ)
    (hnum : ∀ j, symFree (xi j) = true)
    (hkfail : evalfVec (eval_on_knots xiSym n2 d2 sub2).1 = none)
    (hbfail : evalfMat (eval_on_knots xiSym n2 d2 sub2).2 = none) :
    (∀ x ∈ (eval_on_knots_mx xi n d sub).1, x.isConst = true) ∧
    (∀ row ∈ (eval_on_knots_mx xi n d sub).2, ∀ x ∈ row, x.isConst = true) ∧
    (eval_on_knots_mx xiSym n2 d2 sub2).1 = (eval_on_knots xiSym n2 d2 sub2).1 ∧
    (eval_on_knots_mx xiSym n2 d2 sub2).2 = (eval_on_knots xiSym n2 d2 sub2).2 := by
  obtain ⟨qk, hqk⟩ := Option.isSome_iff_exists.mp
    (evalfVec_isSome _ (evalOnKnots_k_symFree xi n d sub hnum))
  obtain ⟨qb, hqb⟩ := Option.isSome_iff_exists.mp
    (evalfMat_isSome _ (evalOnKnots_basis_symFree xi n d sub hnum))
  refine ⟨?_, ?_, ?_, ?_⟩
  · intro x hx
    rw [show (eval_on_knots_mx xi n d sub).1
        = (match evalfVec (eval_on_knots xi n d sub).1 with
           | some q => q.map CExpr.const
           | none => (eval_on_knots xi n d sub).1) from rfl, hqk] at hx
    obtain ⟨q, _, rfl⟩ := List.mem_map.mp hx
    rfl
  · intro row hrow x hx
    rw [show (eval_on_knots_mx xi n d sub).2
        = (match evalfMat (eval_on_knots xi n d sub).2 with
           | some q => q.map (fun r => r.map CExpr.const)
           | none => (eval_on_knots xi n d sub).2) from rfl, hqb] at hrow
    obtain ⟨r, _, rfl⟩ := List.mem_map.mp hrow
    obtain ⟨q, _, rfl⟩ := List.mem_map.mp hx
    rfl
  · rw [show (eval_on_knots_mx xiSym n2 d2 sub2).1
        = (match evalfVec (eval_on_knots xiSym n2 d2 sub2).1 with
           | some q => q.map CExpr.const
           | none => (eval_on_knots xiSym n2 d2 sub2).1) from rfl, hkfail]
  · rw [show (eval_on_knots_mx xiSym n2 d2 sub2).2
        = (match evalfMat (eval_on_knots xiSym n2 d2 sub2).2 with
           | some q => q.map (fun r => r.map CExpr.const)
           | none => (eval_on_knots xiSym n2 d2 sub2).2) from rfl, hbfail]

/-!
## Witnesses: each hypothesis-bearing claim evaluated at a concrete instance
-/

/-- Strictly increasing integer breakpoints used as a concrete instance. -/
def xiW : ℕ → ℚ := fun j => j

theorem claim_C1_witness :
    (solveT (fun (s : ℕ) (log : List ℕ) => log ++ [s]) (fun l => l)
        ⟨[1, 2, 3], false⟩ []).2.2 = [1, 2, 3] ∧
    (solveT (fun (s : ℕ) (log : List ℕ) => log ++ [s]) (fun l => l)
        ⟨[1, 2, 3], false⟩ []).2.1.is_transcribed = true := by
  have h := claim_C1 (fun (s : ℕ) (log : List ℕ) => log ++ [s]) (fun l => l)
    ⟨[1, 2, 3], false⟩ [] rfl
  exact ⟨h.2.2.2.2, h.2.1⟩

theorem claim_C2_witness :
    ((List.range 3).map (eval_basis_knotindex xiW 3 1 0)).sum = 1 + eps64 ∧
    |((List.range 3).map (eval_basis_knotindex xiW 3 1 0)).sum - 1|
      < 1 / 1000000000 := by
  have hcf : eval_basis_knotindex xiW 3 1 0 ∈ evalOnKnotsCols xiW 3 1 1 := by
    unfold evalOnKnotsCols
    rw [List.mem_flatMap]
    exact ⟨0, by decide, List.mem_cons_self _ _⟩
  have hmem : (List.range 3).map (eval_basis_knotindex xiW 3 1 0)
      ∈ (eval_on_knots xiW 3 1 1).2 :=
    List.mem_map_of_mem _ hcf
  exact claim_C2 xiW 3 1 1 (by decide) (by decide)
    (fun a b hab _ => by unfold xiW; exact_mod_cast hab) _ hmem

theorem claim_C3_witness :
    seedKI 1 1 5 ((1 : ℚ) + eps64) 2
        = (if 2 = min (1 + 1) (5 - 1 - 2) then 1 + eps64 else 0) ∧
    seedKI 0 1 5 ((1 : ℚ) + eps64) 2 = (if 2 ≤ 1 then 1 + eps64 else 0) ∧
    eval_basis_knotindex xiW 3 1 1 2
        = (1 + eps64) * evalBasisKnotindexS xiW 3 1 1 1 2 ∧
    eval_basis_knotindex xiW 3 1 1 2 - evalBasisKnotindexS xiW 3 1 1 1 2
      = eps64 * evalBasisKnotindexS xiW 3 1 1 1 2 ∧
    eval_basis_knotindex xiW 3 1 0 2
        = (1 + eps64) * evalBasisKnotindexS xiW 3 1 0 1 2 ∧
    eval_basis_knotindex xiW 3 1 0 2 - evalBasisKnotindexS xiW 3 1 0 1 2
      = eps64 * evalBasisKnotindexS xiW 3 1 0 1 2 :=
  claim_C3 xiW 3 1 5 1 2 (by decide)

theorem claim_C4_witness :
    (bspline_derivative [[0, 1, 2, 3]] [0, 1, 2] 2).isSome = true := by
  obtain ⟨out, h1, -⟩ := claim_C4 [[0, 1, 2, 3]] [0, 1, 2] 2 (by decide) (by decide)
    (by
      intro row hrow
      rw [List.mem_singleton.mp hrow]
      rfl)
  rw [h1]
  rfl

theorem claim_C5_witness :
    constraintCount
        (subjectTo (stageFromPrev (⟨[[5]]⟩ : StageHeap ℕ) ⟨[⟨0⟩], false⟩ ⟨0⟩).1
          (stageFromPrev (⟨[[5]]⟩ : StageHeap ℕ) ⟨[⟨0⟩], false⟩ ⟨0⟩).2.2 7) ⟨0⟩
      = constraintCount (stageFromPrev (⟨[[5]]⟩ : StageHeap ℕ) ⟨[⟨0⟩], false⟩ ⟨0⟩).1 ⟨0⟩ ∧
    constraintCount
        (subjectTo (stageFromPrev (⟨[[5]]⟩ : StageHeap ℕ) ⟨[⟨0⟩], false⟩ ⟨0⟩).1 ⟨0⟩ 9)
        (stageFromPrev (⟨[[5]]⟩ : StageHeap ℕ) ⟨[⟨0⟩], false⟩ ⟨0⟩).2.2
      = constraintCount (stageFromPrev (⟨[[5]]⟩ : StageHeap ℕ) ⟨[⟨0⟩], false⟩ ⟨0⟩).1
          (stageFromPrev (⟨[[5]]⟩ : StageHeap ℕ) ⟨[⟨0⟩], false⟩ ⟨0⟩).2.2 := by
  have h := claim_C5 (⟨[[5]]⟩ : StageHeap ℕ) ⟨[⟨0⟩], false⟩ ⟨0⟩ 7 9 (by decide)
  exact ⟨h.2.2.2.2.1, h.2.2.2.2.2⟩

theorem claim_C6_witness :
    (solveE (fun (_ : ℕ) (_ : ℕ) => (Except.error 0 : Except ℕ ℕ)) (fun o => o)
        ⟨[1], false⟩ 0).2.1.is_transcribed = false ∧
    (solveE (fun (_ : ℕ) (_ : ℕ) => (Except.error 0 : Except ℕ ℕ)) (fun o => o)
        ⟨[1], false⟩ 0).1 = Except.error 0 := by
  have h := claim_C6 (fun (_ : ℕ) (_ : ℕ) => (Except.error 0 : Except ℕ ℕ))
    (fun s o => Except.ok (o + s)) (fun o => o) ⟨[1], false⟩ 0 0 0 rfl rfl
  exact ⟨h.2.1, h.2.2.1⟩

theorem claim_C7_witness :
    knotsOf xiW 3 1 (0 + 1) < subPoint xiW 3 1 0 1 0 ∧
    subPoint xiW 3 1 0 1 0 < knotsOf xiW 3 1 (0 + 1 + 1) := by
  have h := claim_C7 xiW 3 1 0 1 0 (by decide) (by decide) (by decide) (by decide)
    (fun a b hab _ => by unfold xiW; exact_mod_cast hab)
  exact h.2

theorem claim_C8_witness :
    (eval_on_knots_mx (fun _ => CExpr.sym 0) 2 1 0).1
        = (eval_on_knots (fun _ => CExpr.sym 0) 2 1 0).1 ∧
    (eval_on_knots_mx (fun _ => CExpr.sym 0) 2 1 0).2
        = (eval_on_knots (fun _ => CExpr.sym 0) 2 1 0).2 := by
  have h := claim_C8 (fun _ => CExpr.const 0) (fun _ => CExpr.sym 0) 2 1 0 2 1 0
    (fun _ => rfl) rfl rfl
  exact ⟨h.2.2.1, h.2.2.2⟩

theorem claim_C10_witness :
    (addStage (solveT (fun (s : ℕ) (log : List ℕ) => log ++ [s]) (fun l => l)
        ⟨[1, 2], false⟩ []).2.1 3).stages = [1, 2] ++ [3] ∧
    (solveT (fun (s : ℕ) (log : List ℕ) => log ++ [s]) (fun l => l)
        (addStage (solveT (fun (s : ℕ) (log : List ℕ) => log ++ [s]) (fun l => l)
          ⟨[1, 2], false⟩ []).2.1 3)
        (solveT (fun (s : ℕ) (log : List ℕ) => log ++ [s]) (fun l => l)
          ⟨[1, 2], false⟩ []).2.2).2.2
      = (solveT (fun (s : ℕ) (log : List ℕ) => log ++ [s]) (fun l => l)
          ⟨[1, 2], false⟩ []).2.2 := by
  have h := claim_C10 (fun (s : ℕ) (log : List ℕ) => log ++ [s]) (fun l => l)
    ⟨[1, 2], false⟩ [] 3 rfl
  exact ⟨h.1, h.2.1⟩

end Rockit
